import Mathlib

/-!
Verification of `salt/utils/odict.py`: the backport `OrderedDict`
(insertion-order-preserving dictionary backed by a hash index and a
doubly linked key sequence) and `DefaultOrderedDict` (the same container
with an optional zero-argument default factory).

The container state is embedded as the list of `(key, value)` pairs in
insertion order: the doubly linked sequence of the source is this list's
order (head of the list = head of the linked list, i.e. earliest
insertion), and the inherited hash dictionary is recovered by `lookupKV`
(first binding wins; the reachable states keep keys distinct, the
invariant `WF`).  Exceptions raised by the source are embedded in the
error type `Err`: `KeyError(key)` becomes `Err.keyNotFound key`,
`KeyError("dictionary is empty")` becomes `Err.emptyContainer`, and
`TypeError` from the constructors becomes `Err.invalidArgument`.
-/

namespace Odict

/-- Error kinds of the container, embedding the exceptions raised by the
source: `KeyError(key)`, `KeyError("dictionary is empty")` in `popitem`,
and the constructors' `TypeError`. -/
inductive Err (K : Type) where
  | keyNotFound (k : K)
  | emptyContainer
  | invalidArgument
  deriving DecidableEq

/-- The ordered dictionary: the combined state of the inherited `dict`
and the doubly linked key sequence of the source, as the list of
bindings in insertion order (list head = linked-list head = earliest
inserted key). -/
structure OrderedDict (K V : Type) where
  entries : List (K × V)
  deriving DecidableEq

variable {K V : Type} [DecidableEq K] [DecidableEq V]

/-- Lookup in the inherited `dict`: the value bound to `k`, the first
binding in the list winning. -/
def lookupKV : List (K × V) → K → Option V
  | [], _ => none
  | p :: rest, k => if p.1 = k then some p.2 else lookupKV rest k

/-- Removal from the combined state: drops the first binding carrying
`k` (the `dict` entry together with its sequence node). -/
def eraseKV : List (K × V) → K → List (K × V)
  | [], _ => []
  | p :: rest, k => if p.1 = k then rest else p :: eraseKV rest k

/-- `key in self`: membership in the inherited `dict`. -/
def contains (m : OrderedDict K V) (k : K) : Bool :=
  (lookupKV m.entries k).isSome

/-- Invariant I1: each key carried by exactly one sequence node. All
states reachable from the empty dictionary satisfy it. -/
def WF (m : OrderedDict K V) : Prop :=
  (m.entries.map Prod.fst).Nodup

instance (m : OrderedDict K V) : Decidable (WF m) :=
  inferInstanceAs (Decidable ((m.entries.map Prod.fst).Nodup))

/-- `__setitem__`: a new key gets a fresh link at the tail of the
sequence (just before the sentinel) and the binding is added; an
existing key only has its `dict` value overwritten, its link untouched. -/
def setitem (m : OrderedDict K V) (k : K) (v : V) : OrderedDict K V :=
  if contains m k then
    ⟨m.entries.map (fun p => if p.1 = k then (k, v) else p)⟩
  else
    ⟨m.entries ++ [(k, v)]⟩

/-- `__delitem__`: the `dict` deletion raises `KeyError(key)` on an
absent key; on a present key the binding is removed and the link
spliced out of the sequence. -/
def delitem (m : OrderedDict K V) (k : K) : Except (Err K) (OrderedDict K V) :=
  if contains m k then .ok ⟨eraseKV m.entries k⟩
  else .error (.keyNotFound k)

/-- `__iter__`: forward traversal of the linked sequence from head to
tail, yielding keys. -/
def iterKeys (m : OrderedDict K V) : List K :=
  m.entries.map Prod.fst

/-- `keys()`: `list(self)`. -/
def keys (m : OrderedDict K V) : List K :=
  iterKeys m

/-- `values()`: `[self[key] for key in self]` — one forward traversal,
each key looked up in the `dict`. -/
def values (m : OrderedDict K V) : List V :=
  (iterKeys m).filterMap (fun k => lookupKV m.entries k)

/-- `items()`: `[(key, self[key]) for key in self]`. -/
def items (m : OrderedDict K V) : List (K × V) :=
  (iterKeys m).filterMap (fun k => (lookupKV m.entries k).map (fun v => (k, v)))

/-- `popitem(last)`: raises on the empty dictionary; otherwise unlinks
the tail node (`last = true`) or the head node (`last = false`), pops
the key from the `dict` and returns the pair together with the new
state. -/
def popitem (m : OrderedDict K V) (last : Bool) : Except (Err K) ((K × V) × OrderedDict K V) :=
  match m.entries with
  | [] => .error .emptyContainer
  | e :: rest =>
    if last then
      match lookupKV (e :: rest) (((e :: rest).getLast (List.cons_ne_nil e rest)).1) with
      | some value =>
        .ok (((((e :: rest).getLast (List.cons_ne_nil e rest)).1), value),
             ⟨(e :: rest).dropLast⟩)
      | none => .error (.keyNotFound (((e :: rest).getLast (List.cons_ne_nil e rest)).1))
    else
      match lookupKV (e :: rest) e.1 with
      | some value => .ok ((e.1, value), ⟨rest⟩)
      | none => .error (.keyNotFound e.1)

/-- `pop(key, default)`: on a present key, reads the value, deletes the
key and returns the value; on an absent key, returns the default when
one was supplied and raises `KeyError(key)` otherwise. The optional
default (`__marker`) is embedded as an `Option`. -/
def pop (m : OrderedDict K V) (key : K) (dflt : Option V) :
    Except (Err K) (V × OrderedDict K V) :=
  if contains m key then
    match lookupKV m.entries key, delitem m key with
    | some result, .ok m2 => .ok (result, m2)
    | _, _ => .error (.keyNotFound key)
  else
    match dflt with
    | some d => .ok (d, m)
    | none => .error (.keyNotFound key)

/-- `update(pairs)` on an iterable of items: `for k, v in other:
self[k] = v`. -/
def updatePairs (m : OrderedDict K V) (ps : List (K × V)) : OrderedDict K V :=
  ps.foldl (fun acc p => setitem acc p.1 p.2) m

/-- Construction from an ordered list of pairs: `OrderedDict(pairs)`,
i.e. `__init__` updating the empty dictionary. -/
def fromPairs (ps : List (K × V)) : OrderedDict K V :=
  updatePairs ⟨[]⟩ ps

/-- The serialization payload of `__reduce__`: the ordered list of
bindings `[[k, self[k]] for k in self]`. -/
def reduceItems (m : OrderedDict K V) : List (K × V) :=
  items m

/-- `copy()`: `self.__class__(self)`, reconstruction from the current
items in order. -/
def copy (m : OrderedDict K V) : OrderedDict K V :=
  fromPairs (items m)

/-- `__eq__` against another `OrderedDict`: order-sensitive,
`len(self) == len(other) and self.items() == other.items()`. -/
def eqOrderedDict (a b : OrderedDict K V) : Bool :=
  decide (a.entries.length = b.entries.length ∧ items a = items b)

/-- `dict.__eq__` of two plain mappings given by their binding lists:
order-insensitive equality, the lookups agree on every key of either
side. -/
def dictEq (a b : List (K × V)) : Bool :=
  decide ((∀ k ∈ a.map Prod.fst, lookupKV a k = lookupKV b k) ∧
          (∀ k ∈ b.map Prod.fst, lookupKV a k = lookupKV b k))

/-- `__eq__` against a regular (unordered) mapping, given by its binding
list: falls back to `dict.__eq__`. -/
def eqPlain (m : OrderedDict K V) (other : List (K × V)) : Bool :=
  dictEq m.entries other

/-- `DefaultOrderedDict`: the ordered dictionary plus the optional
zero-argument default factory (`None` embedded as `none`; the
constructor's callability `TypeError` cannot arise, the factory being
typed). -/
structure DefaultOrderedDict (K V : Type) where
  base : OrderedDict K V
  default_factory : Option (Unit → V)

/-- `DefaultOrderedDict.__getitem__`: a present key returns its stored
value; a missing key goes to `__missing__`, which raises
`KeyError(key)` without a factory and otherwise stores `factory()` via
`__setitem__` (a fresh link at the tail) and returns it. -/
def dgetitem (d : DefaultOrderedDict K V) (k : K) :
    Except (Err K) (V × DefaultOrderedDict K V) :=
  match lookupKV d.base.entries k with
  | some v => .ok (v, d)
  | none =>
    match d.default_factory with
    | none => .error (.keyNotFound k)
    | some f =>
      let value := f ()
      .ok (value, ⟨setitem d.base k value, d.default_factory⟩)

/-- `DefaultOrderedDict.__setitem__`: delegates to the base container. -/
def dsetitem (d : DefaultOrderedDict K V) (k : K) (v : V) : DefaultOrderedDict K V :=
  ⟨setitem d.base k v, d.default_factory⟩

/-- `DefaultOrderedDict.copy` / `__copy__`:
`type(self)(self.default_factory, self)` — the same factory reference
and a reconstruction of the entries from the current items in order. -/
def dcopy (d : DefaultOrderedDict K V) : DefaultOrderedDict K V :=
  ⟨fromPairs (items d.base), d.default_factory⟩

/-! ### Helper lemmas about the embedded state -/

theorem lookupKV_isSome (es : List (K × V)) (k : K) :
    (lookupKV es k).isSome = true ↔ k ∈ es.map Prod.fst := by
  induction es with
  | nil => simp [lookupKV]
  | cons p rest ih =>
    by_cases h : p.1 = k
    · simp [lookupKV, h]
    · simp only [lookupKV, if_neg h, List.map_cons, List.mem_cons, ih]
      constructor
      · exact Or.inr
      · rintro (rfl | hk)
        · exact absurd rfl h
        · exact hk

theorem lookupKV_eq_none (es : List (K × V)) (k : K) (h : k ∉ es.map Prod.fst) :
    lookupKV es k = none := by
  cases hl : lookupKV es k with
  | none => rfl
  | some v => exact absurd ((lookupKV_isSome es k).1 (by simp [hl])) h

theorem lookupKV_of_nodup (es : List (K × V)) (k : K) (v : V)
    (hnd : (es.map Prod.fst).Nodup) (hmem : (k, v) ∈ es) :
    lookupKV es k = some v := by
  induction es with
  | nil => cases hmem
  | cons p rest ih =>
    simp only [List.map_cons, List.nodup_cons] at hnd
    rcases List.mem_cons.mp hmem with heq | hmem'
    · rw [← heq]
      simp [lookupKV]
    · have hkmem : k ∈ rest.map Prod.fst := List.mem_map.mpr ⟨(k, v), hmem', rfl⟩
      have hne : p.1 ≠ k := fun hpk => hnd.1 (by rw [hpk]; exact hkmem)
      simp only [lookupKV, if_neg hne]
      exact ih hnd.2 hmem'

theorem lookupKV_append_none (es fs : List (K × V)) (k : K)
    (h : lookupKV es k = none) : lookupKV (es ++ fs) k = lookupKV fs k := by
  induction es with
  | nil => rfl
  | cons p rest ih =>
    simp only [lookupKV] at h
    simp only [List.cons_append, lookupKV]
    by_cases hp : p.1 = k
    · rw [if_pos hp] at h
      cases h
    · rw [if_neg hp] at h
      rw [if_neg hp]
      exact ih h

theorem contains_eq_false_iff (m : OrderedDict K V) (k : K) :
    contains m k = false ↔ lookupKV m.entries k = none := by
  unfold contains
  cases lookupKV m.entries k <;> simp

theorem lookupKV_erase_self (es : List (K × V)) (k : K)
    (hnd : (es.map Prod.fst).Nodup) : lookupKV (eraseKV es k) k = none := by
  induction es with
  | nil => rfl
  | cons p rest ih =>
    simp only [List.map_cons, List.nodup_cons] at hnd
    by_cases hp : p.1 = k
    · simp only [eraseKV, if_pos hp]
      apply lookupKV_eq_none
      rw [← hp]
      exact hnd.1
    · simp only [eraseKV, if_neg hp, lookupKV, if_neg hp]
      exact ih hnd.2

theorem setitem_fresh (m : OrderedDict K V) (k : K) (v : V) (h : contains m k = false) :
    (setitem m k v).entries = m.entries ++ [(k, v)] := by
  simp [setitem, h]

theorem keys_setitem_fresh (m : OrderedDict K V) (k : K) (v : V)
    (h : contains m k = false) : keys (setitem m k v) = keys m ++ [k] := by
  simp [keys, iterKeys, setitem_fresh m k v h]

theorem contains_setitem_fresh (m : OrderedDict K V) (k : K) (v : V) (kk : K)
    (hm : contains m k = false) (h1 : contains m kk = false) (h2 : kk ≠ k) :
    contains (setitem m k v) kk = false := by
  rw [contains_eq_false_iff] at h1 ⊢
  rw [setitem_fresh m k v hm, lookupKV_append_none _ _ _ h1]
  simp only [lookupKV, if_neg (fun hh : k = kk => h2 hh.symm)]

theorem updatePairs_fresh (ps : List (K × V)) :
    ∀ m : OrderedDict K V, (ps.map Prod.fst).Nodup →
      (∀ k ∈ ps.map Prod.fst, contains m k = false) →
      (updatePairs m ps).entries = m.entries ++ ps := by
  induction ps with
  | nil =>
    intro m _ _
    simp [updatePairs]
  | cons p rest ih =>
    intro m hnd hfresh
    simp only [List.map_cons, List.nodup_cons] at hnd
    have hmp : contains m p.1 = false := hfresh p.1 (by simp)
    have hfresh' : ∀ k ∈ rest.map Prod.fst, contains (setitem m p.1 p.2) k = false := by
      intro k hk
      exact contains_setitem_fresh m p.1 p.2 k hmp
        (hfresh k (List.mem_cons_of_mem _ hk)) (fun hkp => hnd.1 (hkp ▸ hk))
    calc (updatePairs m (p :: rest)).entries
        = (updatePairs (setitem m p.1 p.2) rest).entries := rfl
      _ = (setitem m p.1 p.2).entries ++ rest := ih _ hnd.2 hfresh'
      _ = (m.entries ++ [(p.1, p.2)]) ++ rest := by rw [setitem_fresh m p.1 p.2 hmp]
      _ = m.entries ++ (p :: rest) := by rw [List.append_assoc]; rfl

theorem fromPairs_entries (es : List (K × V)) (h : (es.map Prod.fst).Nodup) :
    (fromPairs es : OrderedDict K V).entries = es := by
  have hfresh : ∀ k ∈ es.map Prod.fst, contains (⟨[]⟩ : OrderedDict K V) k = false :=
    fun k _ => rfl
  have hu := updatePairs_fresh es ⟨[]⟩ h hfresh
  simpa [fromPairs] using hu

theorem fromPairs_id (m : OrderedDict K V) (h : WF m) : fromPairs m.entries = m :=
  congrArg OrderedDict.mk (fromPairs_entries m.entries h)

theorem itemsList_eq (es : List (K × V)) (hnd : (es.map Prod.fst).Nodup) :
    (es.map Prod.fst).filterMap (fun k => (lookupKV es k).map (fun v => (k, v))) = es := by
  induction es with
  | nil => rfl
  | cons p rest ih =>
    simp only [List.map_cons, List.nodup_cons] at hnd
    have hhead : lookupKV (p :: rest) p.1 = some p.2 := by simp [lookupKV]
    have htail : ∀ k ∈ rest.map Prod.fst,
        ((lookupKV (p :: rest) k).map (fun v => (k, v)))
          = ((lookupKV rest k).map (fun v => (k, v))) := by
      intro k hk
      have hne : p.1 ≠ k := fun hp => hnd.1 (hp ▸ hk)
      simp [lookupKV, hne]
    simp only [List.map_cons, List.filterMap_cons, hhead, Option.map_some']
    rw [List.filterMap_congr htail, ih hnd.2]

theorem items_eq_entries (m : OrderedDict K V) (h : WF m) : items m = m.entries := by
  have hl := itemsList_eq m.entries h
  simpa [items, iterKeys] using hl

theorem lookupKV_map_update (es : List (K × V)) (k : K) (v : V)
    (h : (lookupKV es k).isSome = true) :
    lookupKV (es.map (fun p => if p.1 = k then (k, v) else p)) k = some v := by
  induction es with
  | nil => cases h
  | cons p rest ih =>
    by_cases hp : p.1 = k
    · simp [lookupKV, hp]
    · have h' : (lookupKV rest k).isSome = true := by
        simpa [lookupKV, hp] using h
      simp [lookupKV, hp, ih h']

theorem map_fst_update (es : List (K × V)) (k : K) (v : V) :
    ((es.map (fun p => if p.1 = k then (k, v) else p)).map Prod.fst) = es.map Prod.fst := by
  induction es with
  | nil => rfl
  | cons p rest ih =>
    by_cases hp : p.1 = k <;> simp [hp, ih]

theorem filterMap_zip (es : List (K × V)) :
    ∀ ks : List K, (∀ k ∈ ks, (lookupKV es k).isSome = true) →
      (ks.filterMap (fun k => lookupKV es k)).length = ks.length ∧
      ks.filterMap (fun k => (lookupKV es k).map (fun v => (k, v)))
        = ks.zip (ks.filterMap (fun k => lookupKV es k)) := by
  intro ks
  induction ks with
  | nil => intro _; exact ⟨rfl, rfl⟩
  | cons k ks ih =>
    intro hall
    obtain ⟨v, hv⟩ := Option.isSome_iff_exists.mp (hall k (List.mem_cons_self k ks))
    obtain ⟨ihlen, ihzip⟩ := ih (fun kk hk => hall kk (List.mem_cons_of_mem _ hk))
    simp only [List.filterMap_cons, hv, Option.map_some']
    refine ⟨by simp [ihlen], ?_⟩
    rw [ihzip]
    rfl

theorem map_fst_dropLast (l : List (K × V)) :
    (l.dropLast).map Prod.fst = (l.map Prod.fst).dropLast := by
  induction l with
  | nil => rfl
  | cons p rest ih =>
    cases rest with
    | nil => rfl
    | cons q rs =>
      show (p :: (q :: rs).dropLast).map Prod.fst
          = (p.1 :: (q :: rs).map Prod.fst).dropLast
      rw [List.map_cons, ih]
      rfl

/-! ### Claim theorems -/

/-- C1: for any sequence of `set` calls with distinct keys k1..kn on an
initially empty dictionary, with no deletions in between, `keys()`
returns exactly `[k1,...,kn]` in that order: each new key's node is
linked at the tail and forward iteration visits nodes from head to
tail. -/
theorem claim1_set_order_preserved (ps : List (K × V))
    (h : (ps.map Prod.fst).Nodup) :
    keys (fromPairs ps) = ps.map Prod.fst := by
  simp only [keys, iterKeys, fromPairs_entries ps h]

/-- C1 witness: three distinct keys inserted into the empty dictionary
come back from `keys()` in insertion order. -/
theorem claim1_witness :
    keys (fromPairs [((1 : Nat), (10 : Nat)), (2, 20), (3, 30)]) = [1, 2, 3] :=
  claim1_set_order_preserved [((1 : Nat), (10 : Nat)), (2, 20), (3, 30)] (by decide)

/-- C2: overwriting a present key stores the new value (a subsequent
lookup returns it) and leaves `keys()` — the insertion sequence —
unchanged. -/
theorem claim2_overwrite_in_place (m : OrderedDict K V) (k : K) (v2 : V)
    (h : contains m k = true) :
    lookupKV (setitem m k v2).entries k = some v2 ∧
    keys (setitem m k v2) = keys m := by
  have hset : (setitem m k v2).entries
      = m.entries.map (fun p => if p.1 = k then (k, v2) else p) := by
    simp [setitem, h]
  constructor
  · rw [hset]
    exact lookupKV_map_update m.entries k v2 h
  · simp only [keys, iterKeys, hset]
    exact map_fst_update m.entries k v2

/-- C2 witness: overwriting key 1 in a two-key dictionary keeps the key
order `[1, 2]` and makes the lookup return the new value. -/
theorem claim2_witness :
    lookupKV (setitem (fromPairs [((1 : Nat), (10 : Nat)), (2, 20)]) 1 99).entries 1
      = some 99 ∧
    keys (setitem (fromPairs [((1 : Nat), (10 : Nat)), (2, 20)]) 1 99) = [1, 2] :=
  claim2_overwrite_in_place (fromPairs [((1 : Nat), (10 : Nat)), (2, 20)]) 1 99 (by decide)

/-- C6: `popitem` (either flag) on an empty dictionary fails with the
`EmptyContainer` error kind, which is distinct from every `KeyNotFound`
error; no new state is produced, so the dictionary is unchanged. -/
theorem claim6_pop_empty (m : OrderedDict K V) (h : m.entries = []) (last : Bool) :
    popitem m last = .error .emptyContainer ∧
    ∀ j : K, (Err.emptyContainer : Err K) ≠ Err.keyNotFound j := by
  constructor
  · obtain ⟨es⟩ := m
    have h' : es = [] := h
    subst h'
    rfl
  · intro j hj
    exact Err.noConfusion hj

/-- C6 witness: popping the empty dictionary over `Nat` keys fails with
`EmptyContainer` for both flag values. -/
theorem claim6_witness :
    popitem (⟨[]⟩ : OrderedDict Nat Nat) true = .error .emptyContainer ∧
    popitem (⟨[]⟩ : OrderedDict Nat Nat) false = .error .emptyContainer :=
  ⟨(claim6_pop_empty ⟨[]⟩ rfl true).1, (claim6_pop_empty ⟨[]⟩ rfl false).1⟩

/-- C10: the three views are one traversal: `items()` is the
element-wise pairing of `keys()` with `values()`, and all three lists
have the same length, so `items()[i] = (keys()[i], values()[i])`. -/
theorem claim10_views_consistent (m : OrderedDict K V) :
    items m = (keys m).zip (values m) ∧
    (values m).length = (keys m).length ∧
    (items m).length = (keys m).length := by
  have hall : ∀ k ∈ iterKeys m, (lookupKV m.entries k).isSome = true := by
    intro k hk
    exact (lookupKV_isSome m.entries k).mpr hk
  obtain ⟨hlen, hzip⟩ := filterMap_zip m.entries (iterKeys m) hall
  refine ⟨hzip, hlen, ?_⟩
  have h2 : items m = (keys m).zip (values m) := hzip
  have hv : (values m).length = (keys m).length := hlen
  rw [h2, List.length_zip, hv]
  exact Nat.min_self _

/-- C3: `DefaultOrderedDict` lookup: a present key returns its stored
value with no side effect; an absent key with a factory invokes the
factory, inserts the produced value at the tail of the insertion
sequence and returns it; an absent key without a factory fails with
`KeyNotFound` and the dictionary is unchanged (no new state is
produced). -/
theorem claim3_default_get (d : DefaultOrderedDict K V) (k : K) :
    (∀ v, lookupKV d.base.entries k = some v → dgetitem d k = .ok (v, d)) ∧
    (∀ f, lookupKV d.base.entries k = none → d.default_factory = some f →
      dgetitem d k = .ok (f (), ⟨setitem d.base k (f ()), some f⟩) ∧
      (setitem d.base k (f ())).entries = d.base.entries ++ [(k, f ())] ∧
      keys (setitem d.base k (f ())) = keys d.base ++ [k]) ∧
    (lookupKV d.base.entries k = none → d.default_factory = none →
      dgetitem d k = .error (.keyNotFound k)) := by
  refine ⟨?_, ?_, ?_⟩
  · intro v hv
    simp [dgetitem, hv]
  · intro f hnone hf
    have hcf : contains d.base k = false := (contains_eq_false_iff _ _).mpr hnone
    exact ⟨by simp [dgetitem, hnone, hf],
           setitem_fresh _ _ _ hcf, keys_setitem_fresh _ _ _ hcf⟩
  · intro hnone hnofac
    simp [dgetitem, hnone, hnofac]

/-- C3 witness: with factory `fun _ => 42`, reading the absent key 2
auto-vivifies it at the tail; without a factory the read fails with
`KeyNotFound`; a present key returns its stored value unchanged. -/
theorem claim3_witness :
    dgetitem (⟨fromPairs [((1 : Nat), (10 : Nat))], some (fun _ => 42)⟩
        : DefaultOrderedDict Nat Nat) 2
      = .ok (42, ⟨⟨[(1, 10), (2, 42)]⟩, some (fun _ => 42)⟩) ∧
    dgetitem (⟨fromPairs [((1 : Nat), (10 : Nat))], none⟩
        : DefaultOrderedDict Nat Nat) 2 = .error (.keyNotFound 2) ∧
    dgetitem (⟨fromPairs [((1 : Nat), (10 : Nat))], some (fun _ => 42)⟩
        : DefaultOrderedDict Nat Nat) 1
      = .ok (10, ⟨fromPairs [((1 : Nat), (10 : Nat))], some (fun _ => 42)⟩) :=
  ⟨((claim3_default_get
      (⟨fromPairs [((1 : Nat), (10 : Nat))], some (fun _ => 42)⟩
        : DefaultOrderedDict Nat Nat) 2).2.1 (fun _ => 42) rfl rfl).1,
   (claim3_default_get
      (⟨fromPairs [((1 : Nat), (10 : Nat))], none⟩
        : DefaultOrderedDict Nat Nat) 2).2.2 rfl rfl,
   (claim3_default_get
      (⟨fromPairs [((1 : Nat), (10 : Nat))], some (fun _ => 42)⟩
        : DefaultOrderedDict Nat Nat) 1).1 10 rfl⟩

/-- C4: equality is order-sensitive between two `OrderedDict`s but
order-insensitive against a plain mapping: two dictionaries with the
same bindings in different insertion orders compare unequal to each
other, yet each compares equal to the plain unordered mapping holding
those bindings. -/
theorem claim4_eq_order_sensitivity (a b : OrderedDict K V)
    (ha : WF a) (hb : WF b) (hkeys : keys a ≠ keys b)
    (hab : ∀ k ∈ keys a, lookupKV a.entries k = lookupKV b.entries k)
    (hba : ∀ k ∈ keys b, lookupKV a.entries k = lookupKV b.entries k) :
    eqOrderedDict a b = false ∧ eqPlain a b.entries = true ∧
    eqPlain b a.entries = true := by
  refine ⟨?_, ?_, ?_⟩
  · apply decide_eq_false
    rintro ⟨-, hitems⟩
    rw [items_eq_entries a ha, items_eq_entries b hb] at hitems
    exact hkeys (congrArg (List.map Prod.fst) hitems)
  · exact decide_eq_true ⟨hab, hba⟩
  · exact decide_eq_true
      ⟨fun k hk => (hba k hk).symm, fun k hk => (hab k hk).symm⟩

/-- C4 witness: `{0: 1, 1: 2}` and `{1: 2, 0: 1}` as ordered
dictionaries are unequal, but each equals the other's underlying plain
mapping. -/
theorem claim4_witness :
    eqOrderedDict (fromPairs [((0 : Nat), (1 : Nat)), (1, 2)])
        (fromPairs [((1 : Nat), (2 : Nat)), (0, 1)]) = false ∧
    eqPlain (fromPairs [((0 : Nat), (1 : Nat)), (1, 2)])
        (fromPairs [((1 : Nat), (2 : Nat)), (0, 1)]).entries = true ∧
    eqPlain (fromPairs [((1 : Nat), (2 : Nat)), (0, 1)])
        (fromPairs [((0 : Nat), (1 : Nat)), (1, 2)]).entries = true :=
  claim4_eq_order_sensitivity _ _ (by decide) (by decide) (by decide)
    (by decide) (by decide)

/-- C5: on a non-empty dictionary, `popitem(last := true)` removes and
returns the tail (most recently inserted) binding leaving the rest of
the sequence intact, and `popitem(last := false)` removes and returns
the head (earliest inserted) binding; the remaining keys keep their
relative order. -/
theorem claim5_popitem_lifo_fifo (m : OrderedDict K V) (e : K × V)
    (rest : List (K × V)) (h : m.entries = e :: rest) (hwf : WF m) :
    popitem m true = .ok ((e :: rest).getLast (List.cons_ne_nil e rest),
                          ⟨(e :: rest).dropLast⟩) ∧
    keys (⟨(e :: rest).dropLast⟩ : OrderedDict K V) = (keys m).dropLast ∧
    popitem m false = .ok (e, ⟨rest⟩) ∧
    keys (⟨rest⟩ : OrderedDict K V) = (keys m).tail := by
  have hnd : ((e :: rest).map Prod.fst).Nodup := by rw [← h]; exact hwf
  have hmem := List.getLast_mem (l := e :: rest) (List.cons_ne_nil e rest)
  have hlook : lookupKV (e :: rest)
      (((e :: rest).getLast (List.cons_ne_nil e rest)).1)
      = some (((e :: rest).getLast (List.cons_ne_nil e rest)).2) := by
    apply lookupKV_of_nodup _ _ _ hnd
    rw [Prod.mk.eta]
    exact hmem
  obtain ⟨es⟩ := m
  have h' : es = e :: rest := h
  subst h'
  refine ⟨?_, ?_, ?_, ?_⟩
  · simp [popitem, hlook]
  · show ((e :: rest).dropLast).map Prod.fst = ((e :: rest).map Prod.fst).dropLast
    exact map_fst_dropLast (e :: rest)
  · simp [popitem, lookupKV]
  · rfl

/-- C5 witness: from insertion order `[1, 2, 3]`, the LIFO pop removes
and returns `(3, 30)` leaving `[1, 2]`, and the FIFO pop removes and
returns `(1, 10)` leaving `[2, 3]`. -/
theorem claim5_witness :
    popitem (fromPairs [((1 : Nat), (10 : Nat)), (2, 20), (3, 30)]) true
      = .ok ((3, 30), ⟨[(1, 10), (2, 20)]⟩) ∧
    popitem (fromPairs [((1 : Nat), (10 : Nat)), (2, 20), (3, 30)]) false
      = .ok ((1, 10), ⟨[(2, 20), (3, 30)]⟩) :=
  ⟨(claim5_popitem_lifo_fifo (fromPairs [((1 : Nat), (10 : Nat)), (2, 20), (3, 30)])
      (1, 10) [(2, 20), (3, 30)] (by decide) (by decide)).1,
   (claim5_popitem_lifo_fifo (fromPairs [((1 : Nat), (10 : Nat)), (2, 20), (3, 30)])
      (1, 10) [(2, 20), (3, 30)] (by decide) (by decide)).2.2.1⟩

/-- C7: `pop(key, default?)` fails with `KeyNotFound` exactly when the
key is absent and no default was supplied; an absent key with a default
returns the default and leaves the dictionary unchanged; a present key
is removed (entry and sequence node) and its stored value returned. -/
theorem claim7_pop_key (m : OrderedDict K V) (k : K) (dflt : Option V) :
    (dflt = none → contains m k = false →
      pop m k dflt = .error (.keyNotFound k)) ∧
    (∀ d, dflt = some d → contains m k = false → pop m k dflt = .ok (d, m)) ∧
    (∀ v, lookupKV m.entries k = some v →
      pop m k dflt = .ok (v, ⟨eraseKV m.entries k⟩) ∧
      (WF m → lookupKV (eraseKV m.entries k) k = none)) ∧
    (∀ e, pop m k dflt = .error e →
      contains m k = false ∧ dflt = none ∧ e = .keyNotFound k) := by
  refine ⟨?_, ?_, ?_, ?_⟩
  · intro hd hc
    subst hd
    simp [pop, hc]
  · intro d hd hc
    subst hd
    simp [pop, hc]
  · intro v hv
    have hc : contains m k = true := by simp [contains, hv]
    exact ⟨by simp [pop, hc, hv, delitem],
           fun hwf => lookupKV_erase_self m.entries k hwf⟩
  · intro e he
    by_cases hc : contains m k = true
    · exfalso
      have hs : (lookupKV m.entries k).isSome = true := hc
      obtain ⟨v, hv⟩ := Option.isSome_iff_exists.mp hs
      have hok : pop m k dflt = .ok (v, ⟨eraseKV m.entries k⟩) := by
        simp [pop, hc, hv, delitem]
      rw [hok] at he
      cases he
    · have hcf : contains m k = false := by simpa using hc
      cases hd : dflt with
      | some d =>
        have hok : pop m k dflt = .ok (d, m) := by simp [pop, hcf, hd]
        rw [hok] at he
        cases he
      | none =>
        have herr : pop m k dflt = .error (.keyNotFound k) := by
          simp [pop, hcf, hd]
        rw [herr] at he
        injection he with h1
        exact ⟨hcf, rfl, h1.symm⟩

/-- C7 witness: popping the present key 1 removes it and returns its
value; popping the absent key 3 with default 77 returns the default
with the dictionary untouched. -/
theorem claim7_witness :
    pop (fromPairs [((1 : Nat), (10 : Nat)), (2, 20)]) 1 none
      = .ok (10, ⟨[(2, 20)]⟩) ∧
    pop (fromPairs [((1 : Nat), (10 : Nat)), (2, 20)]) 3 (some 77)
      = .ok (77, fromPairs [((1 : Nat), (10 : Nat)), (2, 20)]) :=
  ⟨((claim7_pop_key (fromPairs [((1 : Nat), (10 : Nat)), (2, 20)]) 1 none).2.2.1
      10 (by decide)).1,
   (claim7_pop_key (fromPairs [((1 : Nat), (10 : Nat)), (2, 20)]) 3 (some 77)).2.1
      77 rfl (by decide)⟩

/-- C8: serialization round-trip: rebuilding a dictionary from the
ordered `(key, value)` pairs emitted by the `__reduce__` hook yields a
dictionary with identical key order and identical values (the very
same state). -/
theorem claim8_reduce_roundtrip (m : OrderedDict K V) (h : WF m) :
    fromPairs (reduceItems m) = m := by
  have hi : reduceItems m = m.entries := items_eq_entries m h
  rw [hi]
  exact fromPairs_id m h

/-- C8 witness: the round-trip on a concrete three-key dictionary
reproduces it exactly. -/
theorem claim8_witness :
    fromPairs (reduceItems (fromPairs [((1 : Nat), (10 : Nat)), (2, 20), (3, 30)]))
      = fromPairs [((1 : Nat), (10 : Nat)), (2, 20), (3, 30)] :=
  claim8_reduce_roundtrip (fromPairs [((1 : Nat), (10 : Nat)), (2, 20), (3, 30)])
    (by decide)

/-- C9: `DefaultOrderedDict.copy` shares the factory reference,
reproduces the entries in the same insertion order independently, and
setting a fresh key on the copy extends only the copy's sequence: the
original's keys still lack that key. -/
theorem claim9_copy_independent (d : DefaultOrderedDict K V) (h : WF d.base) :
    (dcopy d).default_factory = d.default_factory ∧
    (dcopy d).base = d.base ∧
    (∀ x v, contains d.base x = false →
      keys (dsetitem (dcopy d) x v).base = keys d.base ++ [x] ∧
      x ∉ keys d.base) := by
  have hbase : (dcopy d).base = d.base := by
    show fromPairs (items d.base) = d.base
    rw [items_eq_entries d.base h]
    exact fromPairs_id d.base h
  refine ⟨rfl, hbase, ?_⟩
  intro x v hx
  constructor
  · show keys (setitem (dcopy d).base x v) = keys d.base ++ [x]
    rw [hbase]
    exact keys_setitem_fresh d.base x v hx
  · intro hmem
    have hsome : (lookupKV d.base.entries x).isSome = true :=
      (lookupKV_isSome _ _).mpr hmem
    rw [(contains_eq_false_iff _ _).mp hx] at hsome
    cases hsome

/-- C9 witness: copying a two-key dictionary with a factory and setting
the fresh key 3 on the copy gives the copy keys `[1, 2, 3]`, while 3 is
not among the original's keys. -/
theorem claim9_witness :
    keys (dsetitem (dcopy (⟨fromPairs [((1 : Nat), (10 : Nat)), (2, 20)],
        some (fun _ => 7)⟩ : DefaultOrderedDict Nat Nat)) 3 9).base = [1, 2, 3] ∧
    3 ∉ keys (fromPairs [((1 : Nat), (10 : Nat)), (2, 20)]) :=
  (claim9_copy_independent (⟨fromPairs [((1 : Nat), (10 : Nat)), (2, 20)],
      some (fun _ => 7)⟩ : DefaultOrderedDict Nat Nat) (by decide)).2.2 3 9 (by decide)

end Odict
